import Mathlib

/-!
Verification of the chunking and retrieval-indexing pipeline of the
notion2ragapi backend (`src/backend/app`), against its natural-language
specification.

Shallow embedding conventions:
* Pure Python string/list code is translated to executable Lean functions
  over `String` / `List`.
* The tiktoken tokenizer (`self.encoding.encode`, an external library with
  exogenous data tables) is modelled as a parameter `tok : String → Nat`
  giving the token count of a string; every size check in the chunker uses
  this one function, exactly as the source uses one `self.encoding`.
* Remote services (OpenAI embeddings / chat, the FAISS library routines
  `normalize_L2` and `IndexFlatIP.search`, `hashlib.md5`, wall-clock time,
  float formatting) are external collaborators; each is modelled as an
  explicit function parameter (an oracle), with its contract stated as a
  theorem hypothesis where a theorem needs it.
* Machine floats are modelled as `ℚ` (the claims under study concern
  control flow, lengths and counts, never float rounding).
* `async` functions are sequential in this code base (one logical task);
  they are modelled as plain functions.
-/

namespace Notion2Rag

/-! ### Whitespace / character classes (`re` patterns in text_processor.py) -/

/-- Python `\s` on ASCII: space, tab, newline, carriage return,
vertical tab, form feed (`text_processor.py` regexes). -/
def isSpaceCh (c : Char) : Bool :=
  c = ' ' || c = '\t' || c = '\n' || c = '\r' || c = '\x0b' || c = '\x0c'

/-- The control characters removed by `clean_text`
(`[\x00-\x08\x0b-\x0c\x0e-\x1f\x7f-\x9f]`). -/
def isCtrlCh (c : Char) : Bool :=
  (c.toNat ≤ 0x08) || (c.toNat = 0x0b) || (c.toNat = 0x0c) ||
  (0x0e ≤ c.toNat && c.toNat ≤ 0x1f) || (0x7f ≤ c.toNat && c.toNat ≤ 0x9f)

/-- `re.sub(r'\s+', ' ', text)`: collapse every whitespace run to a single
space.  The boolean argument records whether the previous character was
part of a whitespace run. -/
def collapseWsAux : Bool → List Char → List Char
  | _, [] => []
  | prevSpace, c :: rest =>
    if isSpaceCh c then
      if prevSpace then collapseWsAux true rest
      else ' ' :: collapseWsAux true rest
    else c :: collapseWsAux false rest

/-- Python `str.strip()` (ASCII whitespace). -/
def pyStripList (l : List Char) : List Char :=
  ((l.dropWhile isSpaceCh).reverse.dropWhile isSpaceCh).reverse

/-- Python `str.strip()` on strings. -/
def pyStrip (s : String) : String :=
  String.mk (pyStripList s.toList)

/-- `TextProcessor.clean_text`: collapse whitespace runs to a single space,
drop control characters, strip.  (The `encode('utf-8').decode('utf-8')`
round-trip is the identity on any valid string and is omitted.) -/
def clean_text (text : String) : String :=
  if text = "" then ""
  else String.mk (pyStripList ((collapseWsAux false text.toList).filter (fun c => !isCtrlCh c)))

/-- One step of `re.split(r'(?<=[.!?])\s+', text)`.  The boolean is true
while the characters being read belong to a separator whitespace run (one
that started immediately after `.`, `!` or `?`); `acc` holds the current
fragment reversed. -/
def splitSentGo : Bool → List Char → List Char → List (List Char)
  | _, acc, [] => [acc.reverse]
  | skipMode, acc, c :: rest =>
    if skipMode && isSpaceCh c then splitSentGo true acc rest
    else if (c = '.' || c = '!' || c = '?') &&
            (match rest with | d :: _ => isSpaceCh d | [] => false) then
      (c :: acc).reverse :: splitSentGo true [] rest
    else splitSentGo false (c :: acc) rest

/-- `TextProcessor._split_into_sentences`: split after `.`/`!`/`?` followed
by whitespace, strip each fragment, drop empty fragments. -/
def split_into_sentences (text : String) : List String :=
  ((splitSentGo false [] text.toList).map (fun cs => pyStrip (String.mk cs))).filter
    (fun s => s ≠ "")

/-- Worker for Python `str.split()`: `acc` holds the current word
reversed; whitespace runs end words, empty fragments are dropped. -/
def splitWordsGo : List Char → List Char → List String
  | acc, [] => if acc.isEmpty then [] else [String.mk acc.reverse]
  | acc, c :: rest =>
    if isSpaceCh c then
      if acc.isEmpty then splitWordsGo [] rest
      else String.mk acc.reverse :: splitWordsGo [] rest
    else splitWordsGo (c :: acc) rest

/-- Python `str.split()` with no argument: split on whitespace runs,
dropping empty fragments. -/
def splitWords (s : String) : List String :=
  splitWordsGo [] s.toList

/-- Python `sep.join(l)`. -/
def joinStr (sep : String) : List String → String
  | [] => ""
  | [s] => s
  | s :: rest => s ++ sep ++ joinStr sep rest

/-- `" ".join(...)`. -/
def joinSpace (l : List String) : String :=
  joinStr " " l

/-- Total token count of a list of sentence/word strings, as accumulated
by the chunker's running counters (one `encode` call per element). -/
def sumTok (tok : String → Nat) (l : List String) : Nat :=
  (l.map tok).sum

/-! ### `TextProcessor._split_long_sentence` -/

/-- The word-packing loop of `_split_long_sentence`, on word lists.
State: words still to process, current sub-chunk (word list), its running
token count. -/
def splitLongLoop (tok : String → Nat) (maxTokens : Nat) :
    List String → List String → Nat → List (List String)
  | [], current, _ => if current.isEmpty then [] else [current]
  | w :: rest, current, curTok =>
    let wt := tok w
    if maxTokens < curTok + wt then
      (if current.isEmpty then [] else [current]) ++ splitLongLoop tok maxTokens rest [w] wt
    else
      splitLongLoop tok maxTokens rest (current ++ [w]) (curTok + wt)

/-- `_split_long_sentence` on the word list of the sentence, before the
final `" ".join` of each sub-chunk. -/
def splitLongCore (tok : String → Nat) (maxTokens : Nat) (ws : List String) :
    List (List String) :=
  splitLongLoop tok maxTokens ws [] 0

/-- `TextProcessor._split_long_sentence`. -/
def split_long_sentence (tok : String → Nat) (sentence : String) (maxTokens : Nat) :
    List String :=
  (splitLongCore tok maxTokens (splitWords sentence)).map joinSpace

/-! ### `TextProcessor.create_chunks` -/

/-- The backward overlap walk of `create_chunks` (`for s in
reversed(current_chunk): ...`), on the reversed chunk.  `acc` holds the
accepted sentences (in original order), `t` their accumulated token
count. -/
def overlapGo (tok : String → Nat) (overlap : Nat) :
    List String → List String → Nat → List String × Nat
  | [], acc, t => (acc, t)
  | s :: rest, acc, t =>
    if t + tok s ≤ overlap then overlapGo tok overlap rest (s :: acc) (t + tok s)
    else (acc, t)

/-- The overlap suffix kept when a chunk is flushed: sentences of the
just-emitted chunk, walked backward, accepted while the cumulative token
count stays ≤ `overlap`. Returns (sentences, their token count). -/
def overlapWalk (tok : String → Nat) (overlap : Nat) (chunk : List String) :
    List String × Nat :=
  overlapGo tok overlap chunk.reverse [] 0

/-- The sentence-packing loop of `create_chunks`, producing chunks as
lists of sentence (or, for the long-sentence path, word) fragments, each
tagged with whether it came from the `_split_long_sentence` path
(`true`) or from normal greedy packing (`false`). -/
def chunksLoop (tok : String → Nat) (size overlap : Nat) :
    List String → List String → Nat → List (Bool × List String)
  | [], current, _ => if current.isEmpty then [] else [(false, current)]
  | s :: rest, current, curTok =>
    let st := tok s
    if size < st then
      (if current.isEmpty then [] else [(false, current)]) ++
        (splitLongCore tok size (splitWords s)).map (fun c => (true, c)) ++
        chunksLoop tok size overlap rest [] 0
    else if size < curTok + st then
      if current.isEmpty then
        chunksLoop tok size overlap rest (current ++ [s]) (curTok + st)
      else
        (if 0 < overlap then
          let seed := overlapWalk tok overlap current
          (false, current) :: chunksLoop tok size overlap rest (seed.1 ++ [s]) (seed.2 + st)
        else
          (false, current) :: chunksLoop tok size overlap rest [s] st)
    else
      chunksLoop tok size overlap rest (current ++ [s]) (curTok + st)

/-- `create_chunks` with each chunk still in fragment-list form and tagged
with its provenance (`true` = emitted by the long-sentence-split path). -/
def create_chunks_tagged (tok : String → Nat) (text : String) (size overlap : Nat) :
    List (Bool × List String) :=
  if text = "" then []
  else chunksLoop tok size overlap (split_into_sentences (clean_text text)) [] 0

/-- `TextProcessor.create_chunks`: the emitted chunk strings. -/
def create_chunks (tok : String → Nat) (text : String) (size overlap : Nat) :
    List String :=
  (create_chunks_tagged tok text size overlap).map (fun tc => joinSpace tc.2)

/-- Word-count tokenizer: a concrete instance of the abstract tokenizer
under which `" ".join` is exactly token-additive (as cl100k_base is on
short space-separated ASCII words). -/
def wordTok (s : String) : Nat :=
  (splitWords s).length

/-- Character-count tokenizer: a concrete instance of the abstract
tokenizer used to exhibit a single word whose token count exceeds the
chunk size. -/
def charTok (s : String) : Nat :=
  s.length

/-- Tokenizer counting occurrences of `'.'`; join-additive, used to
instantiate tokenizer hypotheses in witnesses. -/
def dotTok (s : String) : Nat :=
  s.toList.count '.'

/-! ### Embedding service (`embedding_service.py`)

Machine floats are modelled as `ℚ`.  The remote OpenAI endpoint is an
oracle: `batchCall` is one `client.embeddings.create` call on a batch;
`single` is the outcome of `generate_embedding` (one text, after its
three tenacity retry attempts — retries collapse into the oracle's
verdict, since only the post-retry outcome is observable). -/

/-- Embedding vectors (float lists in the source). -/
abbrev Vec := List ℚ

/-- The all-zero fallback vector (`[0.0] * 1536`). -/
def zeroVec (n : Nat) : Vec :=
  List.replicate n 0

/-- A remote call issued by the embedding gateway, recorded for the
"no remote calls" parts of the spec. -/
inductive RemoteCall where
  | batch : List String → RemoteCall
  | single : String → RemoteCall
deriving DecidableEq

/-- The remote embedding backend. -/
structure EmbedOracle where
  batchCall : List String → Except String (List Vec)
  single : String → Except String Vec

/-- The per-item fallback of a failed batch: `generate_embedding`'s
result, or the zero vector when that also fails. -/
def singleOrZero (O : EmbedOracle) (x : String) : Vec :=
  match O.single x with
  | Except.ok v => v
  | Except.error _ => zeroVec 1536

/-- `EmbeddingService.generate_embeddings_batch`: process `texts` in
windows of `max_batch_size = 100`; on batch failure fall back to one
`generate_embedding` per text of that window, substituting
`[0.0] * 1536` when that also fails.  Returns the vectors and the trace
of remote calls issued.  (The inter-batch `asyncio.sleep(0.1)` is pure
timing and has no observable effect here.) -/
def genBatchGo (O : EmbedOracle) : List String → List Vec × List RemoteCall
  | [] => ([], [])
  | t :: ts =>
    let b := t :: ts.take 99
    let r := genBatchGo O (ts.drop 99)
    match O.batchCall b with
    | Except.ok vs => (vs ++ r.1, RemoteCall.batch b :: r.2)
    | Except.error _ =>
      (b.map (singleOrZero O) ++ r.1,
       RemoteCall.batch b :: (b.map RemoteCall.single ++ r.2))
termination_by l => l.length
decreasing_by simp [List.length_drop]; omega

/-- The vectors returned by `generate_embeddings_batch`. -/
def generate_embeddings_batch (O : EmbedOracle) (texts : List String) : List Vec :=
  (genBatchGo O texts).1

/-- The remote calls issued by `generate_embeddings_batch`. -/
def generate_embeddings_batch_trace (O : EmbedOracle) (texts : List String) :
    List RemoteCall :=
  (genBatchGo O texts).2

/-- The batch window (`texts[i:i+100]` for `i = 100 * (idx / 100)`) that
item `idx` falls into. -/
def batchWindow (texts : List String) (idx : Nat) : List String :=
  (texts.drop (100 * (idx / 100))).take 100

/-- `np.dot` on equal-length vectors (zip semantics). -/
def dotp : Vec → Vec → ℚ
  | [], _ => 0
  | _, [] => 0
  | a :: as, b :: bs => a * b + dotp as bs

/-- Sum of squares; `np.linalg.norm v` is `sqrt (sumSq v)`. -/
def sumSq (v : Vec) : ℚ :=
  (v.map (fun x => x * x)).sum

/-- `EmbeddingService.cosine_similarity`.  `sqrtQ` models the exogenous
square root used by `np.linalg.norm` (so the norm of `v` is
`sqrtQ (sumSq v)`); the guard `norm1 == 0 or norm2 == 0` and the final
division are the source's. -/
def cosine_similarity (sqrtQ : ℚ → ℚ) (v1 v2 : Vec) : ℚ :=
  if sqrtQ (sumSq v1) = 0 ∨ sqrtQ (sumSq v2) = 0 then 0
  else dotp v1 v2 / (sqrtQ (sumSq v1) * sqrtQ (sumSq v2))

/-! ### FAISS vector store (`faiss_db.py`)

State: `rows` are the vectors held by the `IndexFlatIP` (so
`index.ntotal = rows.length`), `documents` is the parallel metadata dict
(Python dicts preserve insertion order; assignment to an existing key
keeps its position).  `faiss.normalize_L2` is the exogenous parameter
`nrm`; `index.search` is the exogenous parameter `faissTopK`. -/

/-- A metadata value (string or integer), as stored in chunk/document
metadata dictionaries. -/
inductive MVal where
  | s : String → MVal
  | n : Int → MVal
deriving DecidableEq

/-- Python `str(v)` of a metadata value. -/
def mvalStr : MVal → String
  | .s v => v
  | .n k => toString k

/-- String-keyed metadata mapping (insertion-ordered). -/
abbrev Meta := List (String × MVal)

/-- First-match association lookup (Python `dict` access / `.get`). -/
def alookup {α : Type} (k : String) : List (String × α) → Option α
  | [] => none
  | p :: rest => if p.1 = k then some p.2 else alookup k rest

/-- Python `d[k] = v` on an insertion-ordered dict: overwrite in place
when the key exists, else append. -/
def assocSet {α : Type} (k : String) (v : α) (d : List (String × α)) :
    List (String × α) :=
  if (alookup k d).isSome then d.map (fun p => if p.1 = k then (k, v) else p)
  else d ++ [(k, v)]

/-- The per-id payload of the metadata store (`{'text': ..., 'metadata': ...}`). -/
structure DocData where
  text : String
  metadata : Meta
deriving DecidableEq

/-- `FAISSVectorDB` in-memory state. -/
structure DBState where
  rows : List Vec
  documents : List (String × DocData)
deriving DecidableEq

/-- A freshly created index (`IndexFlatIP(dimension)` plus `{}`). -/
def emptyDB : DBState :=
  { rows := [], documents := [] }

/-- One entry passed to `add_documents`
(`{'id': ..., 'text': ..., 'embedding': ..., 'metadata': ...}`;
a missing `id` defaults to `str(len(self.documents))` at processing
time). -/
structure AddDoc where
  id : Option String
  text : String
  embedding : Vec
  metadata : Meta
deriving DecidableEq

/-- The index's configured dimension (`self.dimension = 1536`). -/
def faissDim : Nat := 1536

/-- The dimension repair of `add_documents`/`search`: pad with zeros at
the tail when shorter than `dim`, truncate when longer, unchanged when
equal. -/
def repairDim (dim : Nat) (v : Vec) : Vec :=
  if v.length = dim then v
  else if v.length < dim then v ++ List.replicate (dim - v.length) 0
  else v.take dim

/-- The per-document loop of `add_documents`: store metadata under the
(possibly defaulted) id, collect the dimension-repaired embedding. -/
def addLoop : List AddDoc → List (String × DocData) → List Vec →
    List (String × DocData) × List Vec
  | [], docs, embs => (docs, embs)
  | d :: rest, docs, embs =>
    let did := d.id.getD (toString docs.length)
    addLoop rest (assocSet did ⟨d.text, d.metadata⟩ docs)
      (embs ++ [repairDim faissDim d.embedding])

/-- `FAISSVectorDB.add_documents`: empty input returns immediately;
otherwise metadata entries are stored and the normalized repaired
embeddings are appended to the FAISS index rows. -/
def add_documents (nrm : Vec → Vec) (s : DBState) (ds : List AddDoc) : DBState :=
  if ds.isEmpty then s
  else
    { rows := s.rows ++ (addLoop ds s.documents []).2.map nrm,
      documents := (addLoop ds s.documents []).1 }

/-- `FAISSVectorDB.delete_documents`: empty input returns immediately;
otherwise the ids are popped from the metadata dict and
`_rebuild_index` replaces the FAISS index by a fresh empty
`IndexFlatIP` — stored embeddings are not retained, so no vector is
re-added (the source logs "Cannot rebuild FAISS index without stored
embeddings"). -/
def delete_documents (s : DBState) (ids : List String) : DBState :=
  if ids.isEmpty then s
  else
    { rows := [],
      documents := ids.foldl (fun d i => d.filter (fun p => decide (p.1 ≠ i))) s.documents }

/-- `FAISSVectorDB.update_document`: overwrite text/metadata when the id
exists, then call `add_documents` with the entry (appending a new
vector row either way). -/
def update_document (nrm : Vec → Vec) (s : DBState) (did : String) (d : AddDoc) : DBState :=
  let s1 :=
    if (alookup did s.documents).isSome then
      { s with documents := assocSet did ⟨d.text, d.metadata⟩ s.documents }
    else s
  add_documents nrm s1 [{ d with id := some did }]

/-- `FAISSVectorDB.get_document`. -/
def get_document (s : DBState) (did : String) : Option DocData :=
  alookup did s.documents

/-- `FAISSVectorDB.count_documents`. -/
def count_documents (s : DBState) : Nat :=
  s.documents.length

/-- A search result (`{'id', 'text', 'metadata', 'score'}`). -/
structure SearchHit where
  id : String
  text : String
  metadata : Meta
  score : ℚ
deriving DecidableEq

/-- `FAISSVectorDB.search`: empty index returns `[]`; otherwise the query
vector is dimension-repaired and normalized, `index.search` (the
exogenous `faissTopK`) returns `(score, idx)` pairs, and each in-bounds
`idx` is resolved positionally through `list(self.documents.keys())`. -/
def search (faissTopK : List Vec → Vec → Nat → List (ℚ × Int)) (nrm : Vec → Vec)
    (s : DBState) (q : Vec) (topK : Nat) : List SearchHit :=
  if s.rows.length = 0 then []
  else
    let res := faissTopK s.rows (nrm (repairDim faissDim q)) (min topK s.rows.length)
    let docIds := s.documents.map Prod.fst
    res.filterMap (fun p =>
      if h : 0 ≤ p.2 ∧ p.2.toNat < docIds.length then
        (alookup (docIds.get ⟨p.2.toNat, h.2⟩) s.documents).map
          (fun dd => { id := docIds.get ⟨p.2.toNat, h.2⟩, text := dd.text,
                       metadata := dd.metadata, score := p.1 })
      else none)

/-! ### Indexing service (`indexing_service.py`)

`hashlib.md5(...).hexdigest()` is exogenous and modelled as the
parameter `hashFn` (`_generate_content_hash`). -/

/-- A text chunk handed to `index_chunks` (`{'text': ..., 'metadata': ...}`). -/
structure Chunk where
  text : String
  metadata : Meta
deriving DecidableEq

/-- `IndexingService._generate_chunk_id`:
`f"{source_id}_{chunk.metadata.get('chunk_index', 0)}"`. -/
def generate_chunk_id (source_id : String) (c : Chunk) : String :=
  source_id ++ "_" ++ mvalStr ((alookup "chunk_index" c.metadata).getD (MVal.n 0))

/-- `IndexingService._has_content_changed`: compare the stored
`content_hash` metadata (default `""`) with the hash of the new chunk's
text.  A stored non-string value is unequal to any hash string in
Python, hence `true`. -/
def has_content_changed (hashFn : String → String) (existing : DocData) (c : Chunk) : Bool :=
  match alookup "content_hash" existing.metadata with
  | some (MVal.s h) => decide (h ≠ hashFn c.text)
  | some (MVal.n _) => true
  | none => decide ("" ≠ hashFn c.text)

/-- `index_chunks` statistics (`IndexingRunStats`). -/
structure IndexStats where
  total_chunks : Nat
  indexed : Nat
  skipped : Nat
  failed : Nat
deriving DecidableEq

/-- The per-chunk selection loop of `index_chunks`: returns
(skipped count, texts_to_embed, chunks_to_index paired with their ids),
in source order.  NOTE (faithful to the source): with
`force_reindex = False`, a chunk whose entry is absent from the store
falls through both the `if existing:` body and the `else:` of
`if not force_reindex:` — it is neither embedded nor counted. -/
def selectLoop (hashFn : String → String) (s : DBState) (source_id : String)
    (force : Bool) : List Chunk → Nat × List String × List (Chunk × String)
  | [] => (0, [], [])
  | c :: rest =>
    let cid := generate_chunk_id source_id c
    let r := selectLoop hashFn s source_id force rest
    if force then (r.1, c.text :: r.2.1, (c, cid) :: r.2.2)
    else
      match get_document s cid with
      | some existing =>
        if has_content_changed hashFn existing c then
          (r.1, c.text :: r.2.1, (c, cid) :: r.2.2)
        else (r.1 + 1, r.2.1, r.2.2)
      | none => r

/-- `IndexingService.index_chunks`: select chunks, batch-embed the
selected texts, build the vector-store entries (chunk metadata merged
with `source_id` and `content_hash`), store them with one
`add_documents` call.  Returns (new store state, stats, remote embedding
calls issued). -/
def index_chunks (O : EmbedOracle) (hashFn : String → String) (nrm : Vec → Vec)
    (s : DBState) (chunks : List Chunk) (source_id : String) (force : Bool) :
    DBState × IndexStats × List RemoteCall :=
  let sel := selectLoop hashFn s source_id force chunks
  if sel.2.1.isEmpty then
    (s, { total_chunks := chunks.length, indexed := 0, skipped := sel.1, failed := 0 }, [])
  else
    let embs := generate_embeddings_batch O sel.2.1
    let docs := (sel.2.2.zip embs).map (fun p =>
      { id := some p.1.2, text := p.1.1.text, embedding := p.2,
        metadata := assocSet "content_hash" (MVal.s (hashFn p.1.1.text))
          (assocSet "source_id" (MVal.s source_id) p.1.1.metadata) : AddDoc })
    (add_documents nrm s docs,
     { total_chunks := chunks.length, indexed := docs.length, skipped := sel.1, failed := 0 },
     generate_embeddings_batch_trace O sel.2.1)

/-! ### RAG service (`rag_service.py`)

The chat model and the query-embedding call are oracles; `fmtScore`
models Python's `f"{score:.2f}"` float formatting; `now` the
`datetime.utcnow().isoformat()` timestamp. -/

/-- A formatted source citation (`RAGService._format_sources` item). -/
structure SourceRef where
  page_id : String
  page_title : String
  text : String
  score : ℚ
  url : String
  chunk_index : MVal
  total_chunks : MVal
deriving DecidableEq

/-- The result dict of `RAGService.query` (`timestamp` is present only
on the generation path, absent in the fixed no-information response). -/
structure RagResult where
  answer : String
  sources : List SourceRef
  model_used : String
  query : String
  timestamp : Option String
deriving DecidableEq

/-- The fixed no-relevant-information answer of `RAGService.query`. -/
def noInfoMessage : String :=
  "죄송합니다. 질문과 관련된 정보를 찾을 수 없습니다. Notion 문서를 먼저 인덱싱해 주세요."

/-- Default of `settings.openai_model_chat` (env-overridable in the
source; fixed here). -/
def openai_model_chat : String := "gpt-4-turbo-preview"

/-- `metadata.get(k, dflt)` rendered as a string. -/
def metaGetStr (m : Meta) (k : String) (dflt : String) : String :=
  match alookup k m with
  | some v => mvalStr v
  | none => dflt

/-- The enumerated per-document blocks of `RAGService._prepare_context`. -/
def prepareContextGo (fmtScore : ℚ → String) : Nat → List SearchHit → List String
  | _, [] => []
  | i, d :: rest =>
    ("[문서 " ++ toString i ++ " - " ++ metaGetStr d.metadata "page_title" "Untitled" ++
       " (관련도: " ++ fmtScore d.score ++ ")]\n" ++ d.text) ::
      prepareContextGo fmtScore (i + 1) rest

/-- `RAGService._prepare_context`. -/
def prepare_context (fmtScore : ℚ → String) (docs : List SearchHit) : String :=
  joinStr "\n\n---\n\n" (prepareContextGo fmtScore 1 docs)

/-- The fixed system instruction of `RAGService._generate_answer`. -/
def system_prompt : String :=
  "You are a helpful assistant that answers questions based on the provided Notion documents.\n\n            Instructions:\n            1. Answer in Korean if the query is in Korean, otherwise answer in the same language as the query.\n            2. Base your answer ONLY on the provided context from Notion documents.\n            3. If the information is not in the context, say you don't have that information.\n            4. Be concise but comprehensive.\n            5. When referencing information, mention which document it comes from.\n            6. Use markdown formatting when appropriate for better readability."

/-- The user turn of `RAGService._generate_answer`. -/
def user_prompt (context query : String) : String :=
  "Context from Notion documents:\n\n" ++ context ++ "\n\n---\n\nQuestion: " ++ query ++
    "\n\nPlease provide a comprehensive answer based on the above context."

/-- `RAGService._format_sources` (previews truncated to 500 characters). -/
def format_sources (docs : List SearchHit) : List SourceRef :=
  docs.map (fun d =>
    { page_id := metaGetStr d.metadata "page_id" d.id,
      page_title := metaGetStr d.metadata "page_title" "Untitled",
      text := d.text.take 500,
      score := d.score,
      url := metaGetStr d.metadata "url" "",
      chunk_index := (alookup "chunk_index" d.metadata).getD (MVal.n 0),
      total_chunks := (alookup "total_chunks" d.metadata).getD (MVal.n 1) })

/-- `RAGService.query`: validate/embed the stripped query
(`generate_query_embedding` raises on an empty stripped query), search,
return the fixed no-information response when nothing is retrieved, else
generate an answer from the assembled context. -/
def rag_query (embedO : String → Except String Vec)
    (genO : String → String → Except String String)
    (faissTopK : List Vec → Vec → Nat → List (ℚ × Int)) (nrm : Vec → Vec)
    (fmtScore : ℚ → String) (now : String)
    (s : DBState) (q : String) (topK : Nat) : Except String RagResult :=
  if pyStrip q = "" then Except.error "Query cannot be empty"
  else
    match embedO (pyStrip q) with
    | Except.error e => Except.error e
    | Except.ok qv =>
      let docs := search faissTopK nrm s qv topK
      if docs.isEmpty then
        Except.ok { answer := noInfoMessage, sources := [], model_used := openai_model_chat,
                    query := q, timestamp := none }
      else
        match genO system_prompt (user_prompt (prepare_context fmtScore docs) q) with
        | Except.error e => Except.error e
        | Except.ok ans =>
          Except.ok { answer := ans, sources := format_sources docs,
                      model_used := openai_model_chat, query := q, timestamp := some now }

/-! ### Concrete fixtures for witnesses and counterexamples -/

/-- An embedding backend whose batched endpoint is down and whose
single-item endpoint fails exactly on the text `"bad"`. -/
def O0 : EmbedOracle :=
  { batchCall := fun _ => Except.error "batch down",
    single := fun t => if t = "bad" then Except.error "bad input" else Except.ok [1] }

/-- `add_documents` entry with id `"a"`. -/
def dA : AddDoc := { id := some "a", text := "ta", embedding := [], metadata := [] }

/-- `add_documents` entry with id `"b"`. -/
def dB : AddDoc := { id := some "b", text := "tb", embedding := [], metadata := [] }

/-- State after adding two fresh documents to an empty store (identity
in place of `faiss.normalize_L2`). -/
def s1 : DBState := add_documents id emptyDB [dA, dB]

/-- State after then deleting id `"a"`. -/
def s2 : DBState := delete_documents s1 ["a"]

/-- A one-chunk input to `index_chunks` (chunk index 0). -/
def c0 : Chunk := { text := "hello", metadata := [("chunk_index", MVal.n 0)] }

/-- An `add_documents` entry whose embedding is shorter than the
configured dimension. -/
def dShort : AddDoc := { id := some "x", text := "t", embedding := [5], metadata := [] }

/-! ## Supporting lemmas -/

theorem sumTok_append (tok : String → Nat) (a b : List String) :
    sumTok tok (a ++ b) = sumTok tok a + sumTok tok b := by
  simp [sumTok]

theorem sumTok_reverse (tok : String → Nat) (l : List String) :
    sumTok tok l.reverse = sumTok tok l := by
  rw [sumTok, sumTok, List.map_reverse, List.sum_reverse]

theorem overlapGo_spec (tok : String → Nat) (ov : Nat) :
    ∀ (l acc : List String) (t : Nat),
      ∃ tk : List String,
        (overlapGo tok ov l acc t).1 = tk.reverse ++ acc ∧
        (overlapGo tok ov l acc t).2 = t + sumTok tok tk ∧
        (tk = l ∨ ∃ x rest2, l = tk ++ x :: rest2 ∧
            ov < (overlapGo tok ov l acc t).2 + tok x) ∧
        (t ≤ ov → (overlapGo tok ov l acc t).2 ≤ ov) := by
  intro l
  induction l with
  | nil =>
    intro acc t
    exact ⟨[], by simp [overlapGo, sumTok]⟩
  | cons s rest ih =>
    intro acc t
    by_cases h : t + tok s ≤ ov
    · have hstep : overlapGo tok ov (s :: rest) acc t =
        overlapGo tok ov rest (s :: acc) (t + tok s) := by
        simp [overlapGo, h]
      obtain ⟨tk, h1, h2, h3, h4⟩ := ih (s :: acc) (t + tok s)
      refine ⟨s :: tk, ?_, ?_, ?_, ?_⟩
      · rw [hstep, h1]; simp
      · rw [hstep, h2]; simp [sumTok]; omega
      · rcases h3 with h3 | ⟨x, rest2, hx, hb⟩
        · left; rw [h3]
        · right
          exact ⟨x, rest2, by simp [hx], by rw [hstep]; exact hb⟩
      · intro _; rw [hstep]; exact h4 h
    · have hstep : overlapGo tok ov (s :: rest) acc t = (acc, t) := by
        simp [overlapGo, h]
      refine ⟨[], by rw [hstep]; simp, by rw [hstep]; simp [sumTok], ?_,
        by intro ht; rw [hstep]; exact ht⟩
      right
      exact ⟨s, rest, by simp, by rw [hstep]; omega⟩

theorem overlapWalk_spec (tok : String → Nat) (ov : Nat) (chunk : List String) :
    ∃ pre : List String,
      chunk = pre ++ (overlapWalk tok ov chunk).1 ∧
      sumTok tok (overlapWalk tok ov chunk).1 = (overlapWalk tok ov chunk).2 ∧
      (overlapWalk tok ov chunk).2 ≤ ov ∧
      ∀ prs x, pre = prs ++ [x] → ov < (overlapWalk tok ov chunk).2 + tok x := by
  obtain ⟨tk, h1, h2, h3, h4⟩ := overlapGo_spec tok ov chunk.reverse [] 0
  have hfst : (overlapWalk tok ov chunk).1 = tk.reverse := by
    rw [overlapWalk, h1, List.append_nil]
  have hsnd : (overlapWalk tok ov chunk).2 = sumTok tok tk := by
    rw [overlapWalk, h2, Nat.zero_add]
  have hsum : sumTok tok (overlapWalk tok ov chunk).1 = (overlapWalk tok ov chunk).2 := by
    rw [hfst, hsnd, sumTok_reverse]
  have hle : (overlapWalk tok ov chunk).2 ≤ ov := by
    rw [overlapWalk]; exact h4 (Nat.zero_le ov)
  rcases h3 with h3 | ⟨x, rest2, hx, hb⟩
  · refine ⟨[], ?_, hsum, hle, ?_⟩
    · rw [List.nil_append, hfst, h3, List.reverse_reverse]
    · intro prs x hpre
      exact absurd hpre.symm (List.append_ne_nil_of_right_ne_nil prs (by simp))
  · refine ⟨rest2.reverse ++ [x], ?_, hsum, hle, ?_⟩
    · have hrev := congrArg List.reverse hx
      rw [List.reverse_reverse] at hrev
      rw [hfst]
      rw [hrev]
      simp
    · intro prs x' hpre
      have hx' : x' = x := by
        have h5 := congrArg List.getLast? hpre
        rw [List.getLast?_concat, List.getLast?_concat] at h5
        exact (Option.some_inj.mp h5).symm
      subst hx'
      rw [overlapWalk]
      exact hb

theorem chunksLoop_nil (tok : String → Nat) (size overlap : Nat)
    (current : List String) (curTok : Nat) :
    chunksLoop tok size overlap [] current curTok =
      if current.isEmpty then [] else [(false, current)] := by
  rfl

theorem chunksLoop_long (tok : String → Nat) (size overlap : Nat) (s : String)
    (rest current : List String) (curTok : Nat) (h : size < tok s) :
    chunksLoop tok size overlap (s :: rest) current curTok =
      (if current.isEmpty then [] else [(false, current)]) ++
        (splitLongCore tok size (splitWords s)).map (fun c => (true, c)) ++
        chunksLoop tok size overlap rest [] 0 := by
  simp [chunksLoop, h]

theorem chunksLoop_append (tok : String → Nat) (size overlap : Nat) (s : String)
    (rest current : List String) (curTok : Nat) (h1 : ¬ size < tok s)
    (h2 : ¬ size < curTok + tok s) :
    chunksLoop tok size overlap (s :: rest) current curTok =
      chunksLoop tok size overlap rest (current ++ [s]) (curTok + tok s) := by
  simp [chunksLoop, h1, h2]

theorem chunksLoop_append_empty (tok : String → Nat) (size overlap : Nat) (s : String)
    (rest current : List String) (curTok : Nat) (h1 : ¬ size < tok s)
    (h3 : current.isEmpty = true) :
    chunksLoop tok size overlap (s :: rest) current curTok =
      chunksLoop tok size overlap rest (current ++ [s]) (curTok + tok s) := by
  by_cases h2 : size < curTok + tok s
  · simp [chunksLoop, h1, h2, h3]
  · simp [chunksLoop, h1, h2]

theorem chunksLoop_flush_pos (tok : String → Nat) (size overlap : Nat) (s : String)
    (rest current : List String) (curTok : Nat) (h1 : ¬ size < tok s)
    (h2 : size < curTok + tok s) (h3 : current.isEmpty = false) (h4 : 0 < overlap) :
    chunksLoop tok size overlap (s :: rest) current curTok =
      (false, current) ::
        chunksLoop tok size overlap rest
          ((overlapWalk tok overlap current).1 ++ [s])
          ((overlapWalk tok overlap current).2 + tok s) := by
  simp [chunksLoop, h1, h2, h3, h4]

theorem chunksLoop_flush_zero (tok : String → Nat) (size : Nat) (s : String)
    (rest current : List String) (curTok : Nat) (h1 : ¬ size < tok s)
    (h2 : size < curTok + tok s) (h3 : current.isEmpty = false) :
    chunksLoop tok size 0 (s :: rest) current curTok =
      (false, current) :: chunksLoop tok size 0 rest [s] (tok s) := by
  simp [chunksLoop, h1, h2, h3]

theorem chunksLoop_packed_bound (tok : String → Nat) (size overlap : Nat) :
    ∀ (sentences current : List String) (curTok : Nat),
      sumTok tok current = curTok → curTok ≤ size + overlap →
      ∀ c, (false, c) ∈ chunksLoop tok size overlap sentences current curTok →
        sumTok tok c ≤ size + overlap ∧ c ≠ [] := by
  intro sentences
  induction sentences with
  | nil =>
    intro current curTok hsum hle c hc
    rw [chunksLoop_nil] at hc
    by_cases he : current.isEmpty
    · simp [he] at hc
    · simp [he] at hc
      refine ⟨hc ▸ hsum ▸ hle, ?_⟩
      rw [hc]
      simpa using he
  | cons s rest ih =>
    intro current curTok hsum hle c hc
    by_cases hlong : size < tok s
    · rw [chunksLoop_long tok size overlap s rest current curTok hlong] at hc
      rw [List.mem_append, List.mem_append] at hc
      rcases hc with (hc | hc) | hc
      · by_cases he : current.isEmpty
        · simp [he] at hc
        · simp [he] at hc
          refine ⟨hc ▸ hsum ▸ hle, ?_⟩
          rw [hc]
          simpa using he
      · simp at hc
      · exact ih [] 0 rfl (Nat.zero_le _) c hc
    · by_cases hover : size < curTok + tok s
      · by_cases he : current.isEmpty
        · rw [chunksLoop_append_empty tok size overlap s rest current curTok hlong he] at hc
          have hcur : current = [] := by simpa using he
          refine ih (current ++ [s]) (curTok + tok s) ?_ ?_ c hc
          · rw [sumTok_append, hsum]; simp [sumTok]
          · have : curTok = 0 := by
              rw [← hsum, hcur]; rfl
            omega
        · have he' : current.isEmpty = false := by simpa using he
          by_cases hov : 0 < overlap
          · rw [chunksLoop_flush_pos tok size overlap s rest current curTok hlong hover he' hov] at hc
            rcases List.mem_cons.mp hc with hc | hc
            · have hc' : c = current := by simpa using hc
              refine ⟨hc' ▸ hsum ▸ hle, ?_⟩
              rw [hc']
              simpa using he
            · obtain ⟨_, _, hsum2, hle2, _⟩ := overlapWalk_spec tok overlap current
              refine ih _ _ ?_ ?_ c hc
              · rw [sumTok_append, hsum2]; simp [sumTok]
              · omega
          · have hov0 : overlap = 0 := by omega
            subst hov0
            rw [chunksLoop_flush_zero tok size s rest current curTok hlong hover he'] at hc
            rcases List.mem_cons.mp hc with hc | hc
            · have hc' : c = current := by simpa using hc
              refine ⟨hc' ▸ hsum ▸ hle, ?_⟩
              rw [hc']
              simpa using he
            · refine ih [s] (tok s) (by simp [sumTok]) (by omega) c hc
      · rw [chunksLoop_append tok size overlap s rest current curTok hlong hover] at hc
        refine ih (current ++ [s]) (curTok + tok s) ?_ (by omega) c hc
        rw [sumTok_append, hsum]; simp [sumTok]

theorem joinSpace_tok_le (tok : String → Nat)
    (hsub : ∀ a b, tok (a ++ " " ++ b) ≤ tok a + tok b) :
    ∀ l : List String, l ≠ [] → tok (joinSpace l) ≤ sumTok tok l := by
  intro l
  induction l with
  | nil => intro h; exact absurd rfl h
  | cons s rest ih =>
    intro _
    cases rest with
    | nil => simp [joinSpace, joinStr, sumTok]
    | cons s2 rest2 =>
      have : tok (joinSpace (s :: s2 :: rest2)) ≤ tok s + tok (joinSpace (s2 :: rest2)) := by
        exact hsub s (joinSpace (s2 :: rest2))
      have h2 := ih (by simp)
      have : tok (joinSpace (s :: s2 :: rest2)) ≤ tok s + sumTok tok (s2 :: rest2) := by omega
      calc tok (joinSpace (s :: s2 :: rest2)) ≤ tok s + sumTok tok (s2 :: rest2) := this
        _ = sumTok tok (s :: s2 :: rest2) := by simp [sumTok]

theorem dotTok_join_additive (a b : String) :
    dotTok (a ++ " " ++ b) = dotTok a + dotTok b := by
  simp [dotTok]

theorem splitLongLoop_join (tok : String → Nat) (maxT : Nat) :
    ∀ (ws current : List String) (curTok : Nat),
      (splitLongLoop tok maxT ws current curTok).flatten = current ++ ws := by
  intro ws
  induction ws with
  | nil =>
    intro current curTok
    by_cases he : current.isEmpty
    · have hcur : current = [] := by simpa using he
      simp [splitLongLoop, he, hcur]
    · simp [splitLongLoop, he]
  | cons w rest ih =>
    intro current curTok
    by_cases hov : maxT < curTok + tok w
    · by_cases he : current.isEmpty
      · have hcur : current = [] := by simpa using he
        simp [splitLongLoop, hov, he, ih, hcur]
      · simp [splitLongLoop, hov, he, ih]
    · simp [splitLongLoop, hov, ih]

theorem splitLongLoop_bound (tok : String → Nat) (maxT : Nat) :
    ∀ (ws current : List String) (curTok : Nat),
      sumTok tok current = curTok → curTok ≤ maxT → (∀ w ∈ ws, tok w ≤ maxT) →
      ∀ c ∈ splitLongLoop tok maxT ws current curTok, sumTok tok c ≤ maxT ∧ c ≠ [] := by
  intro ws
  induction ws with
  | nil =>
    intro current curTok hsum hle _ c hc
    by_cases he : current.isEmpty
    · simp [splitLongLoop, he] at hc
    · simp [splitLongLoop, he] at hc
      refine ⟨hc ▸ hsum ▸ hle, ?_⟩
      rw [hc]
      simpa using he
  | cons w rest ih =>
    intro current curTok hsum hle hws c hc
    have hw : tok w ≤ maxT := hws w (List.mem_cons_self w rest)
    have hws' : ∀ w' ∈ rest, tok w' ≤ maxT := fun w' hw' => hws w' (List.mem_cons_of_mem w hw')
    by_cases hov : maxT < curTok + tok w
    · by_cases he : current.isEmpty
      · simp only [splitLongLoop, if_pos hov, he, if_pos rfl] at hc
        simp at hc
        exact ih [w] (tok w) (by simp [sumTok]) hw hws' c hc
      · have he' : current.isEmpty = false := by simpa using he
        simp only [splitLongLoop, if_pos hov, he', Bool.false_eq_true, if_neg] at hc
        rcases List.mem_append.mp hc with hc | hc
        · simp at hc
          refine ⟨hc ▸ hsum ▸ hle, ?_⟩
          rw [hc]
          simpa using he
        · exact ih [w] (tok w) (by simp [sumTok]) hw hws' c hc
    · simp only [splitLongLoop, if_neg hov] at hc
      refine ih (current ++ [w]) (curTok + tok w) ?_ (by omega) hws' c hc
      rw [sumTok_append, hsum]; simp [sumTok]

/-! ## Claim theorems: the text chunker (C3, C4, C5) -/

/-- **C3, counterexample.**  The claim "every chunk not produced by the
long-sentence-split path has token count ≤ chunkSize" fails: with the
word-count instance of the tokenizer, input `"a b. c d. e f."`,
`chunkSize = 2` (≥ 1) and `chunkOverlap = 2`, `create_chunks` emits the
greedily-packed (tag `false`) chunk `"a b. c d."` of token count 4 > 2:
after the first flush the overlap seed (`"a b."`, 2 tokens ≤ overlap) is
kept and the overflowing sentence is appended unconditionally, so the
next chunk is closed over-sized. -/
theorem C3_counterexample :
    (false, ["a b.", "c d."]) ∈ create_chunks_tagged wordTok "a b. c d. e f." 2 2 ∧
    wordTok (joinSpace ["a b.", "c d."]) = 4 ∧
    ¬ wordTok (joinSpace ["a b.", "c d."]) ≤ 2 := by
  decide

/-- **C3 (amended).**  For every tokenizer `tok` that is subadditive
over the space-join used to assemble chunks, every input text, every
`chunkSize` and every `chunkOverlap`, each chunk emitted by
`create_chunks` that was not produced by the long-sentence-split path
(tag `false`) has token count ≤ `chunkSize + chunkOverlap` (the
counterexample forces the `+ chunkOverlap` slack; with
`chunkOverlap = 0` this is the claimed `chunkSize` bound). -/
theorem C3_token_bound_amended (tok : String → Nat) (text : String) (size overlap : Nat)
    (hsub : ∀ a b, tok (a ++ " " ++ b) ≤ tok a + tok b) :
    ∀ c, (false, c) ∈ create_chunks_tagged tok text size overlap →
      tok (joinSpace c) ≤ size + overlap := by
  intro c hc
  rw [create_chunks_tagged] at hc
  by_cases ht : text = ""
  · simp [ht] at hc
  · rw [if_neg ht] at hc
    obtain ⟨hb, hne⟩ :=
      chunksLoop_packed_bound tok size overlap
        (split_into_sentences (clean_text text)) [] 0 rfl (Nat.zero_le _) c hc
    exact le_trans (joinSpace_tok_le tok hsub c hne) hb

/-- **C3 (amended), witness**: with the `'.'`-count tokenizer (for which
the space-join is exactly token-additive), input `"a b. c d. e f."`,
`chunkSize = 2`, `chunkOverlap = 2`, the emitted packed chunk
`"a b. c d."` has token count ≤ 2 + 2. -/
theorem C3_token_bound_amended_witness :
    dotTok (joinSpace ["a b.", "c d."]) ≤ 2 + 2 :=
  C3_token_bound_amended dotTok "a b. c d. e f." 2 2
    (fun a b => le_of_eq (dotTok_join_additive a b))
    ["a b.", "c d."] (by decide)

/-- **C4, counterexample.**  The claim "splits that sentence at word
boundaries into sub-chunks each of token count ≤ chunkSize" fails when a
single word already exceeds `chunkSize`: with the character-count
instance of the tokenizer, input `"abcde fg"` and `chunkSize = 3`, the
sentence has 8 > 3 tokens, and `_split_long_sentence` emits the
long-path (tag `true`) sub-chunk `"abcde"` of token count 5 > 3 (the
source starts a fresh sub-chunk with the over-long word and flushes it
over-sized). -/
theorem C4_counterexample :
    (true, ["abcde"]) ∈ create_chunks_tagged charTok "abcde fg" 3 0 ∧
    charTok (joinSpace ["abcde"]) = 5 ∧
    ¬ charTok (joinSpace ["abcde"]) ≤ 3 := by
  decide

/-- **C4 (amended).**  For every sentence whose token count exceeds
`chunkSize`: `create_chunks` first emits any pending chunk, then emits
exactly the word-boundary sub-chunks of that sentence (tagged as
long-path), and continues with the next sentence from an empty overlap
state (`[] , 0`); the sub-chunks concatenate exactly to the sentence's
word list (so no overlap is applied within the sub-split); and each
sub-chunk has token count ≤ `chunkSize` — the last part amended with the
hypothesis that every single word of the sentence has token count
≤ `chunkSize`, which `C4_counterexample` shows is necessary. -/
theorem C4_long_sentence_amended (tok : String → Nat) (size overlap : Nat)
    (s : String) (rest current : List String) (curTok : Nat)
    (hsub : ∀ a b, tok (a ++ " " ++ b) ≤ tok a + tok b)
    (hlong : size < tok s)
    (hwords : ∀ w ∈ splitWords s, tok w ≤ size) :
    chunksLoop tok size overlap (s :: rest) current curTok =
      (if current.isEmpty then [] else [(false, current)]) ++
        (splitLongCore tok size (splitWords s)).map (fun c => (true, c)) ++
        chunksLoop tok size overlap rest [] 0
    ∧ (∀ c ∈ splitLongCore tok size (splitWords s), tok (joinSpace c) ≤ size)
    ∧ (splitLongCore tok size (splitWords s)).flatten = splitWords s := by
  refine ⟨chunksLoop_long tok size overlap s rest current curTok hlong, ?_, ?_⟩
  · intro c hc
    rw [splitLongCore] at hc
    obtain ⟨hb, hne⟩ :=
      splitLongLoop_bound tok size (splitWords s) [] 0 rfl (Nat.zero_le _) hwords c hc
    exact le_trans (joinSpace_tok_le tok hsub c hne) hb
  · rw [splitLongCore, splitLongLoop_join]
    rfl

/-- **C4 (amended), witness**: the `'.'`-count tokenizer, sentence
`"a. b. c."` (3 tokens > chunkSize 1) whose words each have 1 token. -/
theorem C4_long_sentence_amended_witness :
    chunksLoop dotTok 1 0 ["a. b. c."] [] 0 =
      (if ([] : List String).isEmpty then [] else [(false, [])]) ++
        (splitLongCore dotTok 1 (splitWords "a. b. c.")).map (fun c => (true, c)) ++
        chunksLoop dotTok 1 0 [] [] 0
    ∧ (∀ c ∈ splitLongCore dotTok 1 (splitWords "a. b. c."),
        dotTok (joinSpace c) ≤ 1)
    ∧ (splitLongCore dotTok 1 (splitWords "a. b. c.")).flatten = splitWords "a. b. c." :=
  C4_long_sentence_amended dotTok 1 0 "a. b. c." [] [] 0
    (fun a b => le_of_eq (dotTok_join_additive a b)) (by decide) (by decide)

/-- **C5.**  Whenever `create_chunks` closes a chunk because the next
sentence would overflow it (`current` non-empty, sentence fits the size
alone, `curTok + tok s > size`): with `chunkOverlap > 0` the next chunk
is seeded with `overlapWalk`'s suffix (then the overflowing sentence);
with `chunkOverlap = 0` the next chunk starts empty (seed `[s]` alone);
and the seed is a suffix of whole sentences of the just-emitted chunk
whose cumulative token count stays ≤ `chunkOverlap`, stopping at the
first (backward) sentence that would exceed it. -/
theorem C5_overlap_seed (tok : String → Nat) (size overlap : Nat)
    (s : String) (rest current : List String) (curTok : Nat)
    (hne : current.isEmpty = false)
    (hst : tok s ≤ size) (hover : size < curTok + tok s) :
    (0 < overlap →
        chunksLoop tok size overlap (s :: rest) current curTok =
          (false, current) ::
            chunksLoop tok size overlap rest
              ((overlapWalk tok overlap current).1 ++ [s])
              ((overlapWalk tok overlap current).2 + tok s))
    ∧ (overlap = 0 →
        chunksLoop tok size overlap (s :: rest) current curTok =
          (false, current) :: chunksLoop tok size overlap rest [s] (tok s))
    ∧ ∃ pre, current = pre ++ (overlapWalk tok overlap current).1 ∧
        sumTok tok (overlapWalk tok overlap current).1 = (overlapWalk tok overlap current).2 ∧
        (overlapWalk tok overlap current).2 ≤ overlap ∧
        ∀ prs x, pre = prs ++ [x] → overlap < (overlapWalk tok overlap current).2 + tok x := by
  have h1 : ¬ size < tok s := by omega
  refine ⟨?_, ?_, overlapWalk_spec tok overlap current⟩
  · intro hov
    exact chunksLoop_flush_pos tok size overlap s rest current curTok h1 hover hne hov
  · intro hov0
    subst hov0
    exact chunksLoop_flush_zero tok size s rest current curTok h1 hover hne

/-- **C5, witness**: word-count tokenizer, flushing `["a b.", "c d."]`
(4 tokens) when `"e f."` (2 tokens) overflows `chunkSize = 2`, with
`chunkOverlap = 2`. -/
theorem C5_overlap_seed_witness :
    chunksLoop wordTok 2 2 ["e f."] ["a b.", "c d."] 4 =
      (false, ["a b.", "c d."]) ::
        chunksLoop wordTok 2 2 []
          ((overlapWalk wordTok 2 ["a b.", "c d."]).1 ++ ["e f."])
          ((overlapWalk wordTok 2 ["a b.", "c d."]).2 + wordTok "e f.") :=
  (C5_overlap_seed wordTok 2 2 "e f." [] ["a b.", "c d."] 4
    (by decide) (by decide) (by decide)).1 (by decide)

/-! ## Claim theorems: cosine similarity (C7) -/

theorem sumSq_of_all_zero (v : Vec) (h : ∀ x ∈ v, x = 0) : sumSq v = 0 := by
  rw [sumSq]
  apply List.sum_eq_zero
  intro y hy
  obtain ⟨x, hx, hxy⟩ := List.mem_map.mp hy
  rw [← hxy, h x hx]
  ring

/-- **C7.**  `cosine_similarity` returns `0` whenever either vector has
zero norm (in particular whenever either vector is all-zero), and in the
branch where the division is performed both norms are nonzero, so the
divisor (the product of the norms) is nonzero — the division is never
performed with a zero divisor.  `sqrtQ` is the exogenous square root of
`np.linalg.norm`, assumed to vanish exactly at `0` on nonnegative
inputs. -/
theorem C7_cosine_zero_guard (sqrtQ : ℚ → ℚ)
    (hsqrt : ∀ x : ℚ, 0 ≤ x → (sqrtQ x = 0 ↔ x = 0)) (v1 v2 : Vec) :
    ((∀ x ∈ v1, x = 0) ∨ (∀ x ∈ v2, x = 0) → cosine_similarity sqrtQ v1 v2 = 0)
    ∧ (sqrtQ (sumSq v1) = 0 ∨ sqrtQ (sumSq v2) = 0 → cosine_similarity sqrtQ v1 v2 = 0)
    ∧ (sqrtQ (sumSq v1) ≠ 0 → sqrtQ (sumSq v2) ≠ 0 →
        cosine_similarity sqrtQ v1 v2 =
          dotp v1 v2 / (sqrtQ (sumSq v1) * sqrtQ (sumSq v2))
        ∧ sqrtQ (sumSq v1) * sqrtQ (sumSq v2) ≠ 0) := by
  have hz : sqrtQ 0 = 0 := (hsqrt 0 le_rfl).mpr rfl
  refine ⟨?_, ?_, ?_⟩
  · intro h
    rcases h with h | h
    · have : sqrtQ (sumSq v1) = 0 := by rw [sumSq_of_all_zero v1 h, hz]
      simp [cosine_similarity, this]
    · have : sqrtQ (sumSq v2) = 0 := by rw [sumSq_of_all_zero v2 h, hz]
      simp [cosine_similarity, this]
  · intro h
    simp [cosine_similarity, h]
  · intro h1 h2
    constructor
    · rw [cosine_similarity, if_neg]
      push_neg
      exact ⟨h1, h2⟩
    · exact mul_ne_zero h1 h2

/-- **C7, witness**: the identity as `sqrtQ` (it vanishes exactly at
zero), the zero vector against `[1, 2]`. -/
theorem C7_cosine_zero_guard_witness :
    cosine_similarity id [(0 : ℚ), 0] [1, 2] = 0 :=
  (C7_cosine_zero_guard id (fun _ _ => Iff.rfl) [0, 0] [1, 2]).1 (Or.inl (by decide))

/-! ## Claim theorems: batch embedding (C6) -/

theorem genBatchGo_nil (O : EmbedOracle) : genBatchGo O [] = ([], []) := by
  simp [genBatchGo]

theorem genBatchGo_cons_ok (O : EmbedOracle) (t : String) (ts : List String)
    (vs : List Vec) (h : O.batchCall (t :: ts.take 99) = Except.ok vs) :
    genBatchGo O (t :: ts) =
      (vs ++ (genBatchGo O (ts.drop 99)).1,
       RemoteCall.batch (t :: ts.take 99) :: (genBatchGo O (ts.drop 99)).2) := by
  rw [genBatchGo, h]

theorem genBatchGo_cons_err (O : EmbedOracle) (t : String) (ts : List String)
    (e : String) (h : O.batchCall (t :: ts.take 99) = Except.error e) :
    genBatchGo O (t :: ts) =
      ((t :: ts.take 99).map (singleOrZero O) ++ (genBatchGo O (ts.drop 99)).1,
       RemoteCall.batch (t :: ts.take 99) ::
         ((t :: ts.take 99).map RemoteCall.single ++ (genBatchGo O (ts.drop 99)).2)) := by
  rw [genBatchGo, h]

theorem batchWindow_lt (texts : List String) (i : Nat) (h : i < 100) :
    batchWindow texts i = texts.take 100 := by
  rw [batchWindow, Nat.div_eq_of_lt h]
  simp

theorem batchWindow_ge (t : String) (ts : List String) (i : Nat) (h : 100 ≤ i) :
    batchWindow (t :: ts) i = batchWindow (ts.drop 99) (i - 100) := by
  have h2 : 100 * (i / 100) = 99 + 100 * ((i - 100) / 100) + 1 := by
    rw [Nat.div_eq_sub_div (by omega) h]
    ring
  rw [batchWindow, batchWindow, List.drop_drop, h2, List.drop_succ_cons]

theorem genBatchGo_length (O : EmbedOracle)
    (hlen : ∀ b vs, O.batchCall b = Except.ok vs → vs.length = b.length) :
    ∀ (n : Nat) (texts : List String), texts.length ≤ n →
      (genBatchGo O texts).1.length = texts.length := by
  intro n
  induction n with
  | zero =>
    intro texts h
    have : texts = [] := List.length_eq_zero.mp (Nat.le_zero.mp h)
    subst this
    simp [genBatchGo]
  | succ n ih =>
    intro texts h
    match texts with
    | [] => simp [genBatchGo]
    | t :: ts =>
      have hts : ts.length ≤ n := by
        simp at h
        omega
      have hrest : (genBatchGo O (ts.drop 99)).1.length = (ts.drop 99).length :=
        ih (ts.drop 99) (by simp [List.length_drop]; omega)
      cases hbc : O.batchCall (t :: ts.take 99) with
      | ok vs =>
        rw [genBatchGo_cons_ok O t ts vs hbc]
        have hvl := hlen _ _ hbc
        simp [hvl, hrest, List.length_take, List.length_drop]
        omega
      | error e =>
        rw [genBatchGo_cons_err O t ts e hbc]
        simp [hrest, List.length_take, List.length_drop]
        omega

theorem genBatchGo_get (O : EmbedOracle)
    (hlen : ∀ b vs, O.batchCall b = Except.ok vs → vs.length = b.length) :
    ∀ (n : Nat) (texts : List String), texts.length ≤ n → ∀ i, i < texts.length →
      (∀ vs, O.batchCall (batchWindow texts i) = Except.ok vs →
          (genBatchGo O texts).1[i]? = vs[i % 100]?)
      ∧ (∀ e, O.batchCall (batchWindow texts i) = Except.error e →
          ∀ t', texts[i]? = some t' →
            (genBatchGo O texts).1[i]? = some (singleOrZero O t')) := by
  intro n
  induction n with
  | zero =>
    intro texts h i hi
    exact absurd hi (by omega)
  | succ n ih =>
    intro texts h i hi
    match texts with
    | [] => exact absurd hi (by simp)
    | t :: ts =>
      have hlen_cons : (t :: ts).length = ts.length + 1 := by simp
      by_cases hilt : i < 100
      · have hw : batchWindow (t :: ts) i = t :: ts.take 99 := batchWindow_lt _ i hilt
        constructor
        · intro vs hbc
          rw [hw] at hbc
          rw [genBatchGo_cons_ok O t ts vs hbc]
          have hivl : i < vs.length := by
            rw [hlen _ _ hbc]
            simp [List.length_take]
            simp at hi
            omega
          rw [List.getElem?_append_left hivl, Nat.mod_eq_of_lt hilt]
        · intro e hbc t' ht'
          rw [hw] at hbc
          rw [genBatchGo_cons_err O t ts e hbc]
          have hib : i < ((t :: ts.take 99).map (singleOrZero O)).length := by
            simp [List.length_take]
            simp at hi
            omega
          rw [List.getElem?_append_left hib, List.getElem?_map]
          have hbi : (t :: ts.take 99)[i]? = (t :: ts)[i]? := by
            cases i with
            | zero => simp
            | succ j =>
              simp only [List.getElem?_cons_succ]
              simp [List.getElem?_take, show j < 99 by omega]
          rw [hbi, ht']
          rfl
      · push_neg at hilt
        have hi' : i - 100 < (ts.drop 99).length := by
          simp [List.length_drop]
          simp at hi
          omega
        have hlen' : (ts.drop 99).length ≤ n := by
          simp [List.length_drop]
          simp at h
          omega
        have hwin : batchWindow (t :: ts) i = batchWindow (ts.drop 99) (i - 100) :=
          batchWindow_ge t ts i hilt
        have hidx : (t :: ts)[i]? = (ts.drop 99)[i - 100]? := by
          have hd : (ts.drop 99)[i - 100]? = ts[99 + (i - 100)]? := by
            simp [List.getElem?_drop]
          rw [hd, show 99 + (i - 100) = i - 1 by omega]
          cases i with
          | zero => omega
          | succ j =>
            simp
        have hmod : i % 100 = (i - 100) % 100 := by
          conv_lhs => rw [show i = (i - 100) + 100 by omega]
          rw [Nat.add_mod_right]
        have IH := ih (ts.drop 99) hlen' (i - 100) hi'
        cases hbc : O.batchCall (t :: ts.take 99) with
        | ok vs =>
          have hseg : vs.length = 100 := by
            have hv := hlen _ _ hbc
            simp [List.length_take] at hv
            simp at hi
            omega
          constructor
          · intro vs2 hvs2
            rw [genBatchGo_cons_ok O t ts vs hbc,
              List.getElem?_append_right (show vs.length ≤ i by omega), hseg, hmod]
            rw [hwin] at hvs2
            exact IH.1 vs2 hvs2
          · intro e he t' ht'
            rw [genBatchGo_cons_ok O t ts vs hbc,
              List.getElem?_append_right (show vs.length ≤ i by omega), hseg]
            rw [hwin] at he
            rw [hidx] at ht'
            exact IH.2 e he t' ht'
        | error e0 =>
          have hseg : ((t :: ts.take 99).map (singleOrZero O)).length = 100 := by
            simp [List.length_take]
            simp at hi
            omega
          constructor
          · intro vs2 hvs2
            rw [genBatchGo_cons_err O t ts e0 hbc,
              List.getElem?_append_right
                (show ((t :: ts.take 99).map (singleOrZero O)).length ≤ i by omega),
              hseg, hmod]
            rw [hwin] at hvs2
            exact IH.1 vs2 hvs2
          · intro e he t' ht'
            rw [genBatchGo_cons_err O t ts e0 hbc,
              List.getElem?_append_right
                (show ((t :: ts.take 99).map (singleOrZero O)).length ≤ i by omega),
              hseg]
            rw [hwin] at he
            rw [hidx] at ht'
            exact IH.2 e he t' ht'

/-- **C6.**  For every input list of texts (and any remote backend whose
successful batched replies have one vector per input, the documented
remote contract), `generate_embeddings_batch` returns one vector per
input text; on the empty input it returns `[]` and issues no remote
calls; and item `i` of the output is: the `i`-th vector of its window's
batched reply when that batch call succeeded, else the single-item
embedding of `texts[i]`, else the `1536`-dimension zero vector — so a
failing item degrades to a zero vector in place while every other item
keeps its own result, in input order. -/
theorem C6_embed_batch (O : EmbedOracle)
    (hlen : ∀ b vs, O.batchCall b = Except.ok vs → vs.length = b.length) :
    (∀ texts, (generate_embeddings_batch O texts).length = texts.length)
    ∧ generate_embeddings_batch O [] = []
    ∧ generate_embeddings_batch_trace O [] = []
    ∧ (∀ texts i, i < texts.length →
        (∀ vs, O.batchCall (batchWindow texts i) = Except.ok vs →
          (generate_embeddings_batch O texts)[i]? = vs[i % 100]?)
        ∧ (∀ e, O.batchCall (batchWindow texts i) = Except.error e →
            ∀ t', texts[i]? = some t' →
              (∀ v, O.single t' = Except.ok v →
                (generate_embeddings_batch O texts)[i]? = some v)
              ∧ (∀ e2, O.single t' = Except.error e2 →
                  (generate_embeddings_batch O texts)[i]? = some (zeroVec 1536)))) := by
  refine ⟨?_, ?_, ?_, ?_⟩
  · intro texts
    exact genBatchGo_length O hlen texts.length texts le_rfl
  · rw [generate_embeddings_batch, genBatchGo_nil]
  · rw [generate_embeddings_batch_trace, genBatchGo_nil]
  · intro texts i hi
    have H := genBatchGo_get O hlen texts.length texts le_rfl i hi
    refine ⟨H.1, ?_⟩
    intro e he t' ht'
    have h2 := H.2 e he t' ht'
    constructor
    · intro v hv
      rw [generate_embeddings_batch, h2]
      simp [singleOrZero, hv]
    · intro e2 he2
      rw [generate_embeddings_batch, h2]
      simp [singleOrZero, he2]

/-- **C6, witness**: with the batched endpoint down and `"bad"` failing
its single-item call too, item 1 of `["good", "bad"]` degrades to the
zero vector. -/
theorem C6_embed_batch_witness :
    (generate_embeddings_batch O0 ["good", "bad"])[1]? = some (zeroVec 1536) :=
  ((((C6_embed_batch O0 (fun b vs h => by simp [O0] at h)).2.2.2 ["good", "bad"] 1
      (by decide)).2 "batch down" (by rfl) "bad" (by rfl)).2) "bad input" (by rfl)

/-! ## Supporting lemmas: the metadata dict and `add_documents` loop -/

theorem alookup_map_replace_ne {α : Type} (k k' : String) (v : α) (hk : k' ≠ k) :
    ∀ d : List (String × α),
      alookup k (d.map (fun p => if p.1 = k' then (k', v) else p)) = alookup k d := by
  intro d
  induction d with
  | nil => simp [alookup]
  | cons p rest ih =>
    by_cases hp : p.1 = k'
    · simp [alookup, hp, hk, ih]
    · by_cases hpk : p.1 = k
      · simp [alookup, hp, hpk, Ne.symm hk]
      · simp [alookup, hp, hpk, ih]

theorem alookup_map_replace_eq {α : Type} (k : String) (v : α) :
    ∀ d : List (String × α), (alookup k d).isSome →
      alookup k (d.map (fun p => if p.1 = k then (k, v) else p)) = some v := by
  intro d
  induction d with
  | nil => intro h; simp [alookup] at h
  | cons p rest ih =>
    intro h
    by_cases hp : p.1 = k
    · simp [alookup, hp]
    · rw [alookup] at h
      rw [if_neg hp] at h
      have hr := ih h
      simp [alookup, hp, hr]

theorem alookup_concat_ne {α : Type} (k k' : String) (v : α) (hk : k' ≠ k) :
    ∀ d : List (String × α), alookup k (d ++ [(k', v)]) = alookup k d := by
  intro d
  induction d with
  | nil => simp [alookup, hk]
  | cons p rest ih =>
    by_cases hp : p.1 = k
    · simp [alookup, hp]
    · simp [alookup, hp, ih]

theorem alookup_concat_self {α : Type} (k : String) (v : α) :
    ∀ d : List (String × α), alookup k d = none → alookup k (d ++ [(k, v)]) = some v := by
  intro d
  induction d with
  | nil => intro _; simp [alookup]
  | cons p rest ih =>
    intro h
    rw [alookup] at h
    by_cases hp : p.1 = k
    · rw [if_pos hp] at h; exact absurd h (by simp)
    · rw [if_neg hp] at h
      simp [alookup, hp, ih h]

theorem alookup_assocSet {α : Type} (k k' : String) (v : α) (d : List (String × α)) :
    alookup k (assocSet k' v d) = if k' = k then some v else alookup k d := by
  rw [assocSet]
  by_cases hs : (alookup k' d).isSome
  · rw [if_pos hs]
    by_cases hk : k' = k
    · subst hk
      rw [if_pos rfl]
      exact alookup_map_replace_eq k' v d hs
    · rw [if_neg hk]
      exact alookup_map_replace_ne k k' v hk d
  · rw [if_neg hs]
    have hnone : alookup k' d = none := Option.not_isSome_iff_eq_none.mp hs
    by_cases hk : k' = k
    · subst hk
      rw [if_pos rfl]
      exact alookup_concat_self k' v d hnone
    · rw [if_neg hk]
      exact alookup_concat_ne k k' v hk d

theorem length_assocSet {α : Type} (k : String) (v : α) (d : List (String × α)) :
    (assocSet k v d).length =
      if (alookup k d).isSome then d.length else d.length + 1 := by
  rw [assocSet]
  by_cases hs : (alookup k d).isSome
  · simp [hs]
  · simp [hs]

theorem keys_assocSet_isSome {α : Type} (k : String) (v : α) (d : List (String × α))
    (h : (alookup k d).isSome) :
    (assocSet k v d).map Prod.fst = d.map Prod.fst := by
  rw [assocSet, if_pos h, List.map_map]
  apply List.map_congr_left
  intro p _
  by_cases hp : p.1 = k
  · simp [hp]
  · simp [hp]

theorem keys_assocSet_none {α : Type} (k : String) (v : α) (d : List (String × α))
    (h : alookup k d = none) :
    (assocSet k v d).map Prod.fst = d.map Prod.fst ++ [k] := by
  rw [assocSet, if_neg (by simp [h])]
  simp

theorem addLoop_snd : ∀ (ds : List AddDoc) (docs : List (String × DocData)) (embs : List Vec),
    (addLoop ds docs embs).2 = embs ++ ds.map (fun d => repairDim faissDim d.embedding) := by
  intro ds
  induction ds with
  | nil => intro docs embs; simp [addLoop]
  | cons d rest ih =>
    intro docs embs
    rw [addLoop, ih]
    simp

theorem addLoop_fst_length_le :
    ∀ (ds : List AddDoc) (docs : List (String × DocData)) (embs : List Vec),
      (addLoop ds docs embs).1.length ≤ docs.length + ds.length := by
  intro ds
  induction ds with
  | nil => intro docs embs; simp [addLoop]
  | cons d rest ih =>
    intro docs embs
    rw [addLoop]
    have h1 := ih (assocSet (d.id.getD (toString docs.length)) ⟨d.text, d.metadata⟩ docs)
      (embs ++ [repairDim faissDim d.embedding])
    have h2 := length_assocSet (d.id.getD (toString docs.length))
      (⟨d.text, d.metadata⟩ : DocData) docs
    by_cases hs : (alookup (d.id.getD (toString docs.length)) docs).isSome
    · rw [if_pos hs] at h2
      simp only [List.length_cons]
      omega
    · rw [if_neg hs] at h2
      simp only [List.length_cons]
      omega

theorem addLoop_fst_length_eq_iff :
    ∀ (ds : List AddDoc), (∀ d ∈ ds, d.id.isSome) →
      ∀ (docs : List (String × DocData)) (embs : List Vec),
      ((addLoop ds docs embs).1.length = docs.length + ds.length ↔
        ((ds.filterMap (fun d => d.id)).Nodup ∧
          ∀ i ∈ ds.filterMap (fun d => d.id), alookup i docs = none)) := by
  intro ds
  induction ds with
  | nil =>
    intro _ docs embs
    simp [addLoop]
  | cons d rest ih =>
    intro hid docs embs
    obtain ⟨i, hi⟩ := Option.isSome_iff_exists.mp (hid d (List.mem_cons_self d rest))
    have hdid : d.id.getD (toString docs.length) = i := by rw [hi]; rfl
    have hfm : (d :: rest).filterMap (fun d => d.id) =
        i :: rest.filterMap (fun d => d.id) := by
      simp [List.filterMap_cons, hi]
    rw [addLoop, hdid, hfm]
    by_cases hs : (alookup i docs).isSome
    · have hlen2 : (assocSet i (⟨d.text, d.metadata⟩ : DocData) docs).length = docs.length := by
        rw [length_assocSet, if_pos hs]
      constructor
      · intro hl
        exfalso
        have := addLoop_fst_length_le rest (assocSet i ⟨d.text, d.metadata⟩ docs)
          (embs ++ [repairDim faissDim d.embedding])
        rw [hlen2] at this
        simp only [List.length_cons] at hl
        omega
      · intro ⟨_, hall⟩
        have h0 := hall i (List.mem_cons_self _ _)
        rw [h0] at hs
        simp at hs
    · have hnone : alookup i docs = none := Option.not_isSome_iff_eq_none.mp hs
      have hlen2 : (assocSet i (⟨d.text, d.metadata⟩ : DocData) docs).length = docs.length + 1 := by
        rw [length_assocSet, if_neg hs]
      have hrest := ih (fun d' hd' => hid d' (List.mem_cons_of_mem d hd'))
        (assocSet i ⟨d.text, d.metadata⟩ docs) (embs ++ [repairDim faissDim d.embedding])
      rw [hlen2] at hrest
      have hlook : ∀ j, alookup j (assocSet i (⟨d.text, d.metadata⟩ : DocData) docs) =
          if i = j then some ⟨d.text, d.metadata⟩ else alookup j docs :=
        fun j => alookup_assocSet j i ⟨d.text, d.metadata⟩ docs
      constructor
      · intro hl
        have hl' : (addLoop rest (assocSet i ⟨d.text, d.metadata⟩ docs)
            (embs ++ [repairDim faissDim d.embedding])).1.length =
            docs.length + 1 + rest.length := by
          simp only [List.length_cons] at hl
          omega
        obtain ⟨hnodup, hall⟩ := hrest.mp hl'
        have hinotin : i ∉ rest.filterMap (fun d => d.id) := by
          intro hmem
          have := hall i hmem
          rw [hlook i, if_pos rfl] at this
          exact absurd this (by simp)
        refine ⟨List.nodup_cons.mpr ⟨hinotin, hnodup⟩, ?_⟩
        intro j hj
        rcases List.mem_cons.mp hj with hj | hj
        · subst hj; exact hnone
        · have := hall j hj
          rw [hlook j] at this
          by_cases hij : i = j
          · exact absurd this (by simp [hij])
          · rw [if_neg hij] at this; exact this
      · intro ⟨hnodup, hall⟩
        obtain ⟨hinotin, hnodup'⟩ := List.nodup_cons.mp hnodup
        have hall' : ∀ j ∈ rest.filterMap (fun d => d.id),
            alookup j (assocSet i (⟨d.text, d.metadata⟩ : DocData) docs) = none := by
          intro j hj
          rw [hlook j, if_neg (fun hij => hinotin (by rw [hij]; exact hj))]
          exact hall j (List.mem_cons_of_mem _ hj)
        have := hrest.mpr ⟨hnodup', hall'⟩
        simp only [List.length_cons]
        omega

theorem addLoop_keys_fresh :
    ∀ (ds : List AddDoc), (∀ d ∈ ds, d.id.isSome) →
      ∀ (docs : List (String × DocData)) (embs : List Vec),
      (ds.filterMap (fun d => d.id)).Nodup →
      (∀ i ∈ ds.filterMap (fun d => d.id), alookup i docs = none) →
      (addLoop ds docs embs).1.map Prod.fst =
        docs.map Prod.fst ++ ds.filterMap (fun d => d.id) := by
  intro ds
  induction ds with
  | nil => intro _ docs embs _ _; simp [addLoop]
  | cons d rest ih =>
    intro hid docs embs hnodup hfresh
    obtain ⟨i, hi⟩ := Option.isSome_iff_exists.mp (hid d (List.mem_cons_self d rest))
    have hdid : d.id.getD (toString docs.length) = i := by rw [hi]; rfl
    have hfm : (d :: rest).filterMap (fun d => d.id) =
        i :: rest.filterMap (fun d => d.id) := by
      simp [List.filterMap_cons, hi]
    rw [hfm] at hnodup hfresh
    obtain ⟨hinotin, hnodup'⟩ := List.nodup_cons.mp hnodup
    have hnone : alookup i docs = none := hfresh i (List.mem_cons_self _ _)
    rw [addLoop, hdid, hfm]
    have hkeys : (assocSet i (⟨d.text, d.metadata⟩ : DocData) docs).map Prod.fst =
        docs.map Prod.fst ++ [i] := keys_assocSet_none i _ docs hnone
    have hfresh' : ∀ j ∈ rest.filterMap (fun d => d.id),
        alookup j (assocSet i (⟨d.text, d.metadata⟩ : DocData) docs) = none := by
      intro j hj
      rw [alookup_assocSet j i _ docs, if_neg (fun hij => hinotin (by rw [hij]; exact hj))]
      exact hfresh j (List.mem_cons_of_mem _ hj)
    rw [ih (fun d' hd' => hid d' (List.mem_cons_of_mem d hd')) _ _ hnodup' hfresh', hkeys]
    simp

theorem addLoop_keys_existing :
    ∀ (ds : List AddDoc) (docs : List (String × DocData)) (embs : List Vec),
      (∀ d ∈ ds, ∃ i, d.id = some i ∧ (alookup i docs).isSome) →
      (addLoop ds docs embs).1.map Prod.fst = docs.map Prod.fst := by
  intro ds
  induction ds with
  | nil => intro docs embs _; simp [addLoop]
  | cons d rest ih =>
    intro docs embs hex
    obtain ⟨i, hi, hsome⟩ := hex d (List.mem_cons_self d rest)
    have hdid : d.id.getD (toString docs.length) = i := by rw [hi]; rfl
    rw [addLoop, hdid]
    have hkeys : (assocSet i (⟨d.text, d.metadata⟩ : DocData) docs).map Prod.fst =
        docs.map Prod.fst := keys_assocSet_isSome i _ docs hsome
    have hex' : ∀ d' ∈ rest, ∃ j, d'.id = some j ∧
        (alookup j (assocSet i (⟨d.text, d.metadata⟩ : DocData) docs)).isSome := by
      intro d' hd'
      obtain ⟨j, hj, hjsome⟩ := hex d' (List.mem_cons_of_mem d hd')
      refine ⟨j, hj, ?_⟩
      rw [alookup_assocSet j i _ docs]
      by_cases hij : i = j
      · simp [hij]
      · rw [if_neg hij]; exact hjsome
    rw [ih _ _ hex', hkeys]

theorem addLoop_lookup_mono :
    ∀ (ds : List AddDoc) (docs : List (String × DocData)) (embs : List Vec) (k : String),
      (alookup k docs).isSome → (alookup k (addLoop ds docs embs).1).isSome := by
  intro ds
  induction ds with
  | nil => intro docs embs k h; simpa [addLoop] using h
  | cons d rest ih =>
    intro docs embs k h
    rw [addLoop]
    apply ih
    rw [alookup_assocSet]
    by_cases hk : d.id.getD (toString docs.length) = k
    · simp [hk]
    · rw [if_neg hk]; exact h

theorem addLoop_lookup_of_mem :
    ∀ (ds : List AddDoc) (docs : List (String × DocData)) (embs : List Vec)
      (d : AddDoc) (i : String), d ∈ ds → d.id = some i →
      (alookup i (addLoop ds docs embs).1).isSome := by
  intro ds
  induction ds with
  | nil => intro docs embs d i h; exact absurd h (by simp)
  | cons d0 rest ih =>
    intro docs embs d i hmem hi
    rcases List.mem_cons.mp hmem with hmem | hmem
    · subst hmem
      have hdid : d.id.getD (toString docs.length) = i := by rw [hi]; rfl
      rw [addLoop, hdid]
      apply addLoop_lookup_mono
      rw [alookup_assocSet, if_pos rfl]
      simp
    · rw [addLoop]
      exact ih _ _ d i hmem hi

theorem foldl_filter_ne (ids : List String) :
    ∀ d : List (String × DocData),
      ids.foldl (fun d i => d.filter (fun p => decide (p.1 ≠ i))) d =
        d.filter (fun p => decide (p.1 ∉ ids)) := by
  induction ids with
  | nil =>
    intro d
    simp
  | cons i rest ih =>
    intro d
    rw [List.foldl_cons, ih, List.filter_filter]
    apply List.filter_congr
    intro p _
    by_cases h1 : p.1 = i <;> by_cases h2 : p.1 ∈ rest <;> simp [h1, h2]

theorem repairDim_length (dim : Nat) (v : Vec) : (repairDim dim v).length = dim := by
  rw [repairDim]
  by_cases h1 : v.length = dim
  · simp [h1]
  · rw [if_neg h1]
    by_cases h2 : v.length < dim
    · simp [h2]
      omega
    · simp [h2]
      omega

theorem repairDim_pad_zero (dim : Nat) (v : Vec) (j : Nat)
    (h1 : v.length ≤ j) (h2 : j < dim) :
    (repairDim dim v)[j]? = some 0 := by
  have hlt : v.length < dim := by omega
  rw [repairDim, if_neg (by omega), if_pos hlt,
    List.getElem?_append_right h1, List.getElem?_replicate]
  rw [if_pos (by omega)]

/-! ## Claim theorems: the vector store (C2, C8, C10) -/

/-- **C2, counterexample.**  The lock-step invariant fails under
`delete_documents`: add two fresh documents `"a"`, `"b"` to an empty
store, then delete `"a"`.  The metadata store still holds id `"b"`, but
`_rebuild_index` replaced the FAISS index by a fresh empty one (it
cannot re-add vectors it never stored), so the vector index holds zero
rows — the two stores do not hold the same ids, and the positional
row-count/metadata-count correspondence is broken. -/
theorem C2_counterexample :
    s2.documents.map Prod.fst = ["b"] ∧ s2.rows.length = 0 ∧
    ¬ s2.rows.length = s2.documents.length := by
  decide

/-- **C2 (amended).**  The lock-step property (equal counts, ids
appended positionally) is preserved by `add_documents` whose entries
carry explicit, pairwise-distinct, fresh ids; but `delete_documents`
with a non-empty id list rebuilds the vector index empty while the
metadata store retains exactly the entries whose ids were not deleted —
so after a delete the two stores hold the same ids only if nothing
remains. -/
theorem C2_lockstep_amended (nrm : Vec → Vec) (s : DBState) (ds : List AddDoc)
    (h_inv : s.rows.length = s.documents.length)
    (hid : ∀ d ∈ ds, d.id.isSome)
    (hnodup : (ds.filterMap (fun d => d.id)).Nodup)
    (hfresh : ∀ i ∈ ds.filterMap (fun d => d.id), alookup i s.documents = none) :
    ((add_documents nrm s ds).rows.length = (add_documents nrm s ds).documents.length
     ∧ (add_documents nrm s ds).documents.map Prod.fst =
         s.documents.map Prod.fst ++ ds.filterMap (fun d => d.id))
    ∧ (∀ ids, ids ≠ [] →
        (delete_documents s ids).rows = [] ∧
        (delete_documents s ids).documents =
          s.documents.filter (fun p => decide (p.1 ∉ ids))) := by
  constructor
  · by_cases hds : ds.isEmpty
    · have hds' : ds = [] := by simpa using hds
      subst hds'
      rw [add_documents]
      simp [h_inv]
    · rw [add_documents, if_neg hds]
      constructor
      · have hlen := (addLoop_fst_length_eq_iff ds hid s.documents []).mpr ⟨hnodup, hfresh⟩
        simp [addLoop_snd, hlen, h_inv]
      · simpa using addLoop_keys_fresh ds hid s.documents [] hnodup hfresh
  · intro ids hids
    rw [delete_documents, if_neg (by simpa using hids)]
    exact ⟨rfl, foldl_filter_ne ids s.documents⟩

/-- **C2 (amended), witness**: adding the fresh distinct ids `"a"`,
`"b"` to an empty store keeps the row count equal to the metadata
count. -/
theorem C2_lockstep_amended_witness :
    (add_documents id emptyDB [dA, dB]).rows.length =
      (add_documents id emptyDB [dA, dB]).documents.length :=
  ((C2_lockstep_amended id emptyDB [dA, dB] (by decide) (by decide) (by decide)
      (by decide)).1).1

/-- **C8.**  `add_documents` stores, for every entry, a vector of length
exactly the configured dimension (1536): shorter embeddings are padded
with zeros at the tail (the padded positions are still zero in the
stored, normalized row), longer ones truncated; and the entry is
inserted (its id is present in the metadata store afterwards), not
rejected.  `nrm` is the exogenous `faiss.normalize_L2`, assumed
length-preserving and zero-preserving (true of L2 normalization). -/
theorem C8_dimension_repair (nrm : Vec → Vec)
    (hl : ∀ v : Vec, (nrm v).length = v.length)
    (hz : ∀ (v : Vec) (i : Nat), v[i]? = some 0 → (nrm v)[i]? = some 0)
    (s : DBState) (ds : List AddDoc) (hne : ds ≠ []) :
    ((add_documents nrm s ds).rows =
        s.rows ++ ds.map (fun d => nrm (repairDim faissDim d.embedding)))
    ∧ (∀ d ∈ ds,
        (nrm (repairDim faissDim d.embedding)).length = faissDim
        ∧ (∀ j, d.embedding.length ≤ j → j < faissDim →
            (nrm (repairDim faissDim d.embedding))[j]? = some 0)
        ∧ (faissDim < d.embedding.length →
            repairDim faissDim d.embedding = d.embedding.take faissDim))
    ∧ (∀ d ∈ ds, ∀ i, d.id = some i →
        (alookup i (add_documents nrm s ds).documents).isSome) := by
  have hds : ¬ ds.isEmpty := by simpa using hne
  refine ⟨?_, ?_, ?_⟩
  · rw [add_documents, if_neg hds]
    simp [addLoop_snd, List.map_map, Function.comp]
  · intro d _
    refine ⟨?_, ?_, ?_⟩
    · rw [hl, repairDim_length]
    · intro j hj1 hj2
      exact hz (repairDim faissDim d.embedding) j
        (repairDim_pad_zero faissDim d.embedding j hj1 hj2)
    · intro hgt
      rw [repairDim, if_neg (by omega), if_neg (by omega)]
  · intro d hd i hi
    rw [add_documents, if_neg hds]
    exact addLoop_lookup_of_mem ds s.documents [] d i hd hi

/-- **C8, witness**: the identity in place of `normalize_L2`, the
one-element embedding `[5]` on an empty store: the stored vector has
length 1536 and position 1000 (a padded position) holds `0`. -/
theorem C8_dimension_repair_witness :
    (id (repairDim faissDim dShort.embedding)).length = faissDim
    ∧ (∀ j, dShort.embedding.length ≤ j → j < faissDim →
        (id (repairDim faissDim dShort.embedding))[j]? = some 0)
    ∧ (faissDim < dShort.embedding.length →
        repairDim faissDim dShort.embedding = dShort.embedding.take faissDim) :=
  (C8_dimension_repair id (fun _ => rfl) (fun _ _ h => h) emptyDB [dShort]
      (by decide)).2.1 dShort (by decide)

/-- **C10.**  With the row/metadata counts aligned before the call and
every entry carrying an explicit id: if some entry's id is already
present in the metadata store, `add_documents` leaves strictly more
vector rows than metadata entries (the metadata entry is overwritten in
place while a vector row is still appended); the counts stay equal iff
every inserted id is fresh and the call's ids are pairwise distinct;
when all ids are already present the metadata key list is unchanged;
and in the fresh/distinct case the key list is extended positionally by
the new ids while the row count grows by the number of entries. -/
theorem C10_duplicate_id_behavior (nrm : Vec → Vec) (s : DBState) (ds : List AddDoc)
    (h_inv : s.rows.length = s.documents.length)
    (hid : ∀ d ∈ ds, d.id.isSome) :
    ((∃ d ∈ ds, ∃ i, d.id = some i ∧ (alookup i s.documents).isSome) →
        (add_documents nrm s ds).documents.length < (add_documents nrm s ds).rows.length)
    ∧ ((add_documents nrm s ds).rows.length = (add_documents nrm s ds).documents.length
        ↔ ((ds.filterMap (fun d => d.id)).Nodup ∧
            ∀ i ∈ ds.filterMap (fun d => d.id), alookup i s.documents = none))
    ∧ ((∀ d ∈ ds, ∃ i, d.id = some i ∧ (alookup i s.documents).isSome) →
        (add_documents nrm s ds).documents.map Prod.fst = s.documents.map Prod.fst)
    ∧ (((ds.filterMap (fun d => d.id)).Nodup ∧
          ∀ i ∈ ds.filterMap (fun d => d.id), alookup i s.documents = none) →
        (add_documents nrm s ds).documents.map Prod.fst =
          s.documents.map Prod.fst ++ ds.filterMap (fun d => d.id)
        ∧ (add_documents nrm s ds).rows.length = s.rows.length + ds.length) := by
  have hiff : (add_documents nrm s ds).rows.length = (add_documents nrm s ds).documents.length
      ↔ ((ds.filterMap (fun d => d.id)).Nodup ∧
          ∀ i ∈ ds.filterMap (fun d => d.id), alookup i s.documents = none) := by
    by_cases hds : ds.isEmpty
    · have hds' : ds = [] := by simpa using hds
      subst hds'
      rw [add_documents]
      simp [h_inv]
    · rw [add_documents, if_neg hds]
      show (s.rows ++ (addLoop ds s.documents []).2.map nrm).length =
          (addLoop ds s.documents []).1.length ↔ _
      have hrows : (s.rows ++ (addLoop ds s.documents []).2.map nrm).length =
          s.documents.length + ds.length := by
        simp [addLoop_snd, h_inv]
      rw [hrows]
      constructor
      · intro h
        exact (addLoop_fst_length_eq_iff ds hid s.documents []).mp h.symm
      · intro h
        exact ((addLoop_fst_length_eq_iff ds hid s.documents []).mpr h).symm
  refine ⟨?_, hiff, ?_, ?_⟩
  · intro ⟨d, hd, i, hi, hsome⟩
    have hds : ¬ ds.isEmpty := by
      cases ds with
      | nil => exact absurd hd (by simp)
      | cons _ _ => simp
    have hne : ¬ ((ds.filterMap (fun d => d.id)).Nodup ∧
        ∀ j ∈ ds.filterMap (fun d => d.id), alookup j s.documents = none) := by
      intro ⟨_, hall⟩
      have himem : i ∈ ds.filterMap (fun d => d.id) :=
        List.mem_filterMap.mpr ⟨d, hd, hi⟩
      rw [hall i himem] at hsome
      simp at hsome
    have hneq : (add_documents nrm s ds).rows.length ≠
        (add_documents nrm s ds).documents.length :=
      fun h => hne (hiff.mp h)
    have hle : (add_documents nrm s ds).documents.length ≤
        (add_documents nrm s ds).rows.length := by
      rw [add_documents, if_neg hds]
      show (addLoop ds s.documents []).1.length ≤
        (s.rows ++ (addLoop ds s.documents []).2.map nrm).length
      have h2 : (s.rows ++ (addLoop ds s.documents []).2.map nrm).length =
          s.documents.length + ds.length := by
        simp [addLoop_snd, h_inv]
      rw [h2]
      exact addLoop_fst_length_le ds s.documents []
    omega
  · intro hex
    by_cases hds : ds.isEmpty
    · have hds' : ds = [] := by simpa using hds
      subst hds'
      rw [add_documents]
      simp
    · rw [add_documents, if_neg hds]
      exact addLoop_keys_existing ds s.documents [] hex
  · intro ⟨hnodup, hfresh⟩
    by_cases hds : ds.isEmpty
    · have hds' : ds = [] := by simpa using hds
      subst hds'
      rw [add_documents]
      simp
    · rw [add_documents, if_neg hds]
      refine ⟨?_, ?_⟩
      · simpa using addLoop_keys_fresh ds hid s.documents [] hnodup hfresh
      · simp [addLoop_snd]

/-- **C10, witness**: re-adding id `"a"` (already present in the
two-document store `s1`) leaves 3 vector rows against 2 metadata
entries. -/
theorem C10_duplicate_id_behavior_witness :
    (add_documents id s1 [dA]).documents.length < (add_documents id s1 [dA]).rows.length :=
  (C10_duplicate_id_behavior id s1 [dA] (by decide) (by decide)).1
    ⟨dA, by decide, "a", by decide, by decide⟩

/-! ## Claim theorems: indexing pipeline (C1) and RAG query (C9) -/

/-- **C1** (code bug, evaluation at the failing input).  Against an
empty index with `force_reindex = False`, `index_chunks` on one chunk
whose entry is absent reports `indexed = 0, skipped = 0`, stores
nothing, and issues no embedding calls — the `for` loop body appends
the chunk for embedding only inside `if existing:` (changed content) or
in the `else:` of `if not force_reindex:` (forced), so a chunk whose
entry is absent and not forced falls through both and is silently
dropped.  The claim (and spec 4.2, "entry absent → embed and store")
requires `indexed = N` here. -/
theorem C1_absent_entry_dropped :
    index_chunks O0 (fun t => t) id emptyDB [c0] "page" false =
      (emptyDB, { total_chunks := 1, indexed := 0, skipped := 0, failed := 0 }, []) := by
  decide

/-- **C9.**  For every non-empty (after stripping) query whose embedding
call succeeds, asked against an index holding zero vector rows:
`RAGService.query` returns `Except.ok` (a normal outcome, not a
failure) with the fixed no-relevant-information answer and an empty
sources list, and the underlying `search` on the empty index returns
`[]` rather than raising — for any query vector and any `topK`. -/
theorem C9_empty_index_no_info (embedO : String → Except String Vec)
    (genO : String → String → Except String String)
    (faissTopK : List Vec → Vec → Nat → List (ℚ × Int)) (nrm : Vec → Vec)
    (fmtScore : ℚ → String) (now : String) (s : DBState) (q : String) (topK : Nat)
    (hrows : s.rows = []) (hq : pyStrip q ≠ "") (qv : Vec)
    (hemb : embedO (pyStrip q) = Except.ok qv) :
    rag_query embedO genO faissTopK nrm fmtScore now s q topK =
      Except.ok { answer := noInfoMessage, sources := [],
                  model_used := openai_model_chat, query := q, timestamp := none }
    ∧ search faissTopK nrm s qv topK = [] := by
  have hsearch : ∀ (v : Vec) (k : Nat), search faissTopK nrm s v k = [] := by
    intro v k
    rw [search, if_pos]
    rw [hrows]
    rfl
  constructor
  · rw [rag_query, if_neg hq, hemb]
    simp [hsearch]
  · exact hsearch qv topK

/-- **C9, witness**: the query `"hi"` against the empty store, with a
trivially succeeding embedding oracle. -/
theorem C9_empty_index_no_info_witness :
    rag_query (fun _ => Except.ok []) (fun _ _ => Except.ok "") (fun _ _ _ => []) id
        (fun _ => "") "" emptyDB "hi" 5 =
      Except.ok { answer := noInfoMessage, sources := [],
                  model_used := openai_model_chat, query := "hi", timestamp := none }
    ∧ search (fun _ _ _ => []) id emptyDB [] 5 = [] :=
  C9_empty_index_no_info (fun _ => Except.ok []) (fun _ _ => Except.ok "")
    (fun _ _ _ => []) id (fun _ => "") "" emptyDB "hi" 5 rfl (by decide) [] rfl

end Notion2Rag
